import Mathlib

/-
Shallow embedding of the CodeBrain ingestion core
(`backend/app/ingest/js_ingest.py`, `backend/app/ingest/js_chunk_adaptor.py`,
`backend/app/ingest/to_embeding.py`).

The external tree-sitter parser delivers an immutable tree of typed nodes;
each node has a node type, an ordered list of children (a child optionally
carries a field name, which is what `child_by_field_name` looks up), and a
verbatim source-text span (`code[start_byte:end_byte]`, kept here directly as
the node's text).  Python exceptions raised by the extraction code are
modelled with `Except`: attribute access on `None` (the source calls
`node_text(code, None)` when a field is missing) and the unbound stale loop
variable in the adaptor are the two failure points of the translated code.
-/

mutual

inductive Node : Type where
  | mk (type : String) (kids : Kids) (text : String) : Node
deriving DecidableEq

inductive Kids : Type where
  | nil : Kids
  | cons (f : Option String) (n : Node) (rest : Kids) : Kids
deriving DecidableEq

end

def Node.type : Node → String
  | .mk t _ _ => t

def Node.kidsOf : Node → Kids
  | .mk _ k _ => k

def Node.text : Node → String
  | .mk _ _ s => s

def Kids.list : Kids → List (Option String × Node)
  | .nil => []
  | .cons f n rest => (f, n) :: rest.list

/- `node.children` in tree-sitter: the ordered child nodes. -/
def Node.children (n : Node) : List Node :=
  n.kidsOf.list.map Prod.snd

/- `node.child_by_field_name(f)`: the first child carrying field name `f`. -/
def Kids.byField : Kids → String → Option Node
  | .nil, _ => none
  | .cons f n rest, name => if f = some name then some n else rest.byField name

def Node.child_by_field_name (n : Node) (f : String) : Option Node :=
  n.kidsOf.byField f

/- Python exceptions raised by the translated code. -/
inductive PyErr : Type where
  | attributeError : PyErr
  | nameError : PyErr
deriving DecidableEq

instance {ε α : Type} [DecidableEq ε] [DecidableEq α] : DecidableEq (Except ε α) := fun x y =>
  match x, y with
  | .error a, .error b => if h : a = b then .isTrue (by simp [h]) else .isFalse (by simp [h])
  | .ok a, .ok b => if h : a = b then .isTrue (by simp [h]) else .isFalse (by simp [h])
  | .error _, .ok _ => .isFalse (by simp)
  | .ok _, .error _ => .isFalse (by simp)

/- String helpers (pure translations of the Python string operations used). -/

def isQuoteChar (c : Char) : Bool :=
  c = Char.ofNat 39 || c = Char.ofNat 34

/- Python `s.strip("'\x22")`: drop leading and trailing quote characters. -/
def pyStripQuotes (s : String) : String :=
  String.mk (((s.toList.dropWhile isQuoteChar).reverse.dropWhile isQuoteChar).reverse)

/- Python `pat in s`: substring containment. -/
def strContains (s pat : String) : Bool :=
  s.toList.tails.any (fun t => pat.toList.isPrefixOf t)

/- Python `s.startswith(pat)`. -/
def strStarts (s pat : String) : Bool :=
  pat.toList.isPrefixOf s.toList

/-
Every extractor in `js_ingest.py` is the same pre-order walk: contribute a
(possibly empty) list of items at the current node, then recurse into the
children in order.  `collectN` is that walk; `collectEN` is the same walk for
the extractors whose per-node step can raise (the Python exception aborts the
whole walk at once, which `Except` sequencing reproduces).
-/

mutual

def collectN {α : Type} (h : Node → List α) : Node → List α
  | .mk t k s => h (.mk t k s) ++ collectK h k

def collectK {α : Type} (h : Node → List α) : Kids → List α
  | .nil => []
  | .cons _ n rest => collectN h n ++ collectK h rest

end

mutual

def collectEN {α : Type} (h : Node → Except PyErr (List α)) : Node → Except PyErr (List α)
  | .mk t k s =>
    match h (.mk t k s) with
    | .error e => .error e
    | .ok own =>
      match collectEK h k with
      | .error e => .error e
      | .ok rest => .ok (own ++ rest)

def collectEK {α : Type} (h : Node → Except PyErr (List α)) : Kids → Except PyErr (List α)
  | .nil => .ok []
  | .cons _ n rest =>
    match collectEN h n with
    | .error e => .error e
    | .ok a =>
      match collectEK h rest with
      | .error e => .error e
      | .ok b => .ok (a ++ b)

end

/- Pre-order flattening of a tree and an any-node search: independent
reference formulations used to characterize the walks. -/

mutual

def preorderN : Node → List Node
  | .mk t k s => Node.mk t k s :: preorderK k

def preorderK : Kids → List Node
  | .nil => []
  | .cons _ n rest => preorderN n ++ preorderK rest

end

mutual

def anyNodeN (p : Node → Bool) : Node → Bool
  | .mk t k s => p (.mk t k s) || anyNodeK p k

def anyNodeK (p : Node → Bool) : Kids → Bool
  | .nil => false
  | .cons _ n rest => anyNodeN p n || anyNodeK p rest

end

/- `JavaScriptAnalyzer.extract_imports`: for every `import_statement` node,
collect the quote-stripped text of its direct `string` children. -/

def importOperands (n : Node) : List String :=
  n.children.filterMap (fun c => if c.type = "string" then some (pyStripQuotes c.text) else none)

def importHere (n : Node) : List String :=
  if n.type = "import_statement" then importOperands n else []

def extract_imports (root : Node) : List String :=
  collectN importHere root

/- `JavaScriptAnalyzer.extract_calls`: the callee texts of every
`call_expression`, accumulated into a Python `set()` (modelled as a `Finset`:
membership without any iteration order).  `callSeq` is the pre-order sequence
of texts the walk feeds into the set. -/

def callHere (n : Node) : List String :=
  if n.type = "call_expression" then
    match n.child_by_field_name "function" with
    | some fn => [fn.text]
    | none => []
  else []

def callSeq (n : Node) : List String :=
  collectN callHere n

def extract_calls (n : Node) : Finset String :=
  (callSeq n).toFinset

/- `JavaScriptAnalyzer.mutates_state`: texts of assignment left-hand sides
that are `member_expression`s whose text contains the substring "this.",
accumulated into a Python `set()`. -/

def mutHere (n : Node) : List String :=
  if n.type = "assignment_expression" then
    match n.child_by_field_name "left" with
    | some l =>
      if l.type = "member_expression" && strContains l.text "this." then [l.text] else []
    | none => []
  else []

def mutSeq (n : Node) : List String :=
  collectN mutHere n

def mutates_state (n : Node) : Finset String :=
  (mutSeq n).toFinset

/- Shared parameter-list extraction: the `identifier` children of the
`parameters` field node, in order; `[]` when the field is absent. -/
def paramsOf (params_node : Option Node) : List String :=
  match params_node with
  | some pn => pn.children.filterMap (fun p => if p.type = "identifier" then some p.text else none)
  | none => []

structure FnRecord where
  type : String
  name : String
  language : String
  imports : List String
  params : List String
  code : String
deriving DecidableEq

/- `JavaScriptAnalyzer.extract_functions`, per-node step.  When the `name`
field is missing the source sets `function_name = "anonymous"` but then
evaluates `self.node_text(code, name_node)` for the record's `code` key with
`name_node = None`, which raises `AttributeError`; the record's `code` is the
text of the name node, not of the declaration. -/
def fnHere (imports : List String) (n : Node) : Except PyErr (List FnRecord) :=
  if n.type = "function_declaration" then
    match n.child_by_field_name "name" with
    | some name_node =>
      .ok [{ type := "function", name := name_node.text, language := "javascript",
             imports := imports,
             params := paramsOf (n.child_by_field_name "parameters"),
             code := name_node.text }]
    | none => .error .attributeError
  else .ok []

def extract_functions (root : Node) : Except PyErr (List FnRecord) :=
  collectEN (fnHere (extract_imports root)) root

/- `JavaScriptAnalyzer.extract_arrow_functions`, per-node step.  A
`variable_declarator` is reported only when both the `name` and `value`
fields are present and the value is an `arrow_function`; otherwise the node
is silently passed over.  The record's `code` is again the name node's
text. -/
def arrowHere (imports : List String) (n : Node) : List FnRecord :=
  if n.type = "variable_declarator" then
    match n.child_by_field_name "name", n.child_by_field_name "value" with
    | some name_node, some value_node =>
      if value_node.type = "arrow_function" then
        [{ type := "arrow_function", name := name_node.text, language := "javascript",
           imports := imports,
           params := paramsOf (value_node.child_by_field_name "parameters"),
           code := name_node.text }]
      else []
    | _, _ => []
  else []

def extract_arrow_functions (root : Node) : List FnRecord :=
  collectN (arrowHere (extract_imports root)) root

structure MethodRecord where
  name : String
  params : List String
  calls : Finset String
  mutatesState : Bool
  mutations : Finset String
  code : String
deriving DecidableEq

/- Sequential fallible map: process the elements left to right, aborting at
the first raised exception, exactly as a Python `for` loop does. -/
def exMapM {α β : Type} (f : α → Except PyErr β) : List α → Except PyErr (List β)
  | [] => .ok []
  | x :: xs =>
    match f x with
    | .error e => .error e
    | .ok y =>
      match exMapM f xs with
      | .error e => .error e
      | .ok ys => .ok (y :: ys)

/- Combination of two fallible results, first failure winning: the shape of
every `match` pair in `collectEN`/`collectEK`. -/
def exAppend {α : Type} (a b : Except PyErr (List α)) : Except PyErr (List α) :=
  match a with
  | .error e => .error e
  | .ok x =>
    match b with
    | .error e => .error e
    | .ok y => .ok (x ++ y)

/- One `method_definition` member inside `extract_methods`.  `name` is read
with `node_text` without a guard, so a missing `name` field raises;
`mutatesState` is Python's `bool(mutations)`. -/
def methodRecord (member : Node) : Except PyErr MethodRecord :=
  match member.child_by_field_name "name" with
  | none => .error .attributeError
  | some name_node =>
    .ok { name := name_node.text,
          params := paramsOf (member.child_by_field_name "parameters"),
          calls := extract_calls member,
          mutatesState := !(mutSeq member).isEmpty,
          mutations := mutates_state member,
          code := member.text }

/- The members `extract_methods` iterates over: every `method_definition`
child of every `class_body` child of the class node, in order. -/
def methodMembers (class_node : Node) : List Node :=
  (class_node.children.filter (fun c => c.type = "class_body")).flatMap
    (fun body => body.children.filter (fun m => m.type = "method_definition"))

def extract_methods (class_node : Node) : Except PyErr (List MethodRecord) :=
  exMapM methodRecord (methodMembers class_node)

structure ClassRecord where
  type : String
  name : String
  file_path : String
  language : String
  imports : List String
  constructorInfo : String
  methods : List MethodRecord
  code : String
deriving DecidableEq

/- `JavaScriptAnalyzer.extract_classes`, per-node step.  The class name is
read with `node_text` without a guard (missing `name` field raises); the
source hard-codes `"file path"` and `"constructor"` for the `file_path` and
`constructor` keys; the record's `code` is the whole class node's text. -/
def classHere (imports : List String) (n : Node) : Except PyErr (List ClassRecord) :=
  if n.type = "class_declaration" then
    match n.child_by_field_name "name" with
    | none => .error .attributeError
    | some name_node =>
      match extract_methods n with
      | .error e => .error e
      | .ok methods =>
        .ok [{ type := "class", name := name_node.text, file_path := "file path",
               language := "javascript", imports := imports,
               constructorInfo := "constructor", methods := methods, code := n.text }]
  else .ok []

def extract_classes (root : Node) : Except PyErr (List ClassRecord) :=
  collectEN (classHere (extract_imports root)) root

structure ExportRecord where
  type : String
  code : String
deriving DecidableEq

/- `JavaScriptAnalyzer.extract_exports`, per-node step: the three checks of
the source in order (ES named, ES default, CommonJS assignment). -/
def exportHere (n : Node) : List ExportRecord :=
  (if n.type = "export_statement" then [⟨"named_export", n.text⟩] else []) ++
  (if n.type = "export_default_declaration" then [⟨"default_export", n.text⟩] else []) ++
  (if n.type = "assignment_expression" then
    match n.child_by_field_name "left" with
    | some l =>
      if strStarts l.text "module.exports" || strStarts l.text "exports." then
        [⟨"commonjs_export", n.text⟩]
      else []
    | none => []
   else [])

def extract_exports (root : Node) : List ExportRecord :=
  collectN exportHere root

structure AnalysisResult where
  imports : List String
  functions : List FnRecord
  arrow_functions : List FnRecord
  classes : List ClassRecord
  exports : List ExportRecord
deriving DecidableEq

/- `JavaScriptAnalyzer.analyze`: build the per-file aggregate; a Python
exception raised by any extractor propagates out (the dict literal evaluates
its values in order). -/
def analyze (root : Node) : Except PyErr AnalysisResult :=
  match extract_functions root with
  | .error e => .error e
  | .ok functions =>
    match extract_classes root with
    | .error e => .error e
    | .ok classes =>
      .ok { imports := extract_imports root,
            functions := functions,
            arrow_functions := extract_arrow_functions root,
            classes := classes,
            exports := extract_exports root }

/-- Modelled from the spec: the `Chunk` record lives in `chunk.py`, which the
adaptor imports but which is absent from the source tree.  Its fields are the
keyword arguments of the constructor calls in `JSChunkAdaptor.normalize`
(`imports, name, type, language, params, code, path, metadata`), with
`metadata` optional; the only metadata the adaptor ever stores is the class's
method-descriptor list under the `methods` key. -/
structure Chunk where
  imports : List String
  name : String
  type : String
  language : String
  params : List String
  code : String
  path : String
  metadata : Option (List MethodRecord) := none
deriving DecidableEq

/- `JSChunkAdaptor.normalize`: one chunk per function record, then one per
arrow-function record, then one per class record.  The class loop reads
`fn.get(...)` — the loop variable of the earlier function loop — so every
class chunk copies the LAST function record's name/type/language/params/code
(only `metadata` comes from the class record), and when the function list is
empty while a class record exists, `fn` is unbound and Python raises
`NameError`. -/
def JSChunkAdaptor.normalize (file_path : String) (root : Node) : Except PyErr (List Chunk) :=
  match analyze root with
  | .error e => .error e
  | .ok pj =>
    let imports := pj.imports
    let fnChunks := pj.functions.map (fun fn =>
      { imports := imports, name := fn.name, type := fn.type, language := fn.language,
        params := fn.params, code := fn.code, path := file_path : Chunk })
    let arChunks := pj.arrow_functions.map (fun ar =>
      { imports := imports, name := ar.name, type := ar.type, language := ar.language,
        params := ar.params, code := ar.code, path := file_path : Chunk })
    match pj.classes with
    | [] => .ok (fnChunks ++ arChunks)
    | c :: cs =>
      match pj.functions.getLast? with
      | none => .error .nameError
      | some fn =>
        .ok (fnChunks ++ arChunks ++ (c :: cs).map (fun cls =>
          { imports := imports, name := fn.name, type := fn.type, language := fn.language,
            params := fn.params, code := fn.code, path := file_path,
            metadata := some cls.methods : Chunk }))

/-- Modelled from the spec: `Chunk.to_embedding` is defined in the missing
`chunk.py`; per the spec's chunk export contract the embeddable text view is
the chunk's name, code and import context concatenated, reproducible from
the chunk's stored fields alone. -/
def Chunk.to_embedding (c : Chunk) : String :=
  c.name ++ " " ++ c.code ++ " " ++ String.intercalate " " c.imports

/- The module-level pipeline of `to_embeding.py`, applied to the one file it
selects: normalize the file's code and emit every chunk's embedding text, in
order.  It takes no store state: nothing is hashed, looked up, skipped or
upserted. -/
def module_pipeline (root : Node) : Except PyErr (List String) :=
  match JSChunkAdaptor.normalize "test" root with
  | .error e => .error e
  | .ok chunks => .ok (chunks.map Chunk.to_embedding)

/- `JavaScriptAnalyzer.parse`: a `str` is first encoded to UTF-8 bytes, any
`bytes` value is handed to the external tree-sitter parser unchanged; the
wrapper performs no validation of its own and returns the engine's root node
together with the byte string. -/

inductive ParseInput : Type where
  | str (s : String) : ParseInput
  | bytes (bs : List Nat) : ParseInput

def utf8Encode (s : String) : List Nat :=
  s.toUTF8.toList.map (fun b => b.toNat)

/- RFC 3629 UTF-8 validity of a byte sequence (surrogates and overlong forms
rejected), used to state what the claim calls "valid UTF-8 input". -/
def contByte (b : Nat) : Bool :=
  128 ≤ b && b < 192

def validUTF8 : List Nat → Bool
  | [] => true
  | b :: rest =>
    if b < 128 then validUTF8 rest
    else if 194 ≤ b && b ≤ 223 then
      match rest with
      | c1 :: r => contByte c1 && validUTF8 r
      | [] => false
    else if b = 224 then
      match rest with
      | c1 :: c2 :: r => (160 ≤ c1 && c1 < 192) && contByte c2 && validUTF8 r
      | _ => false
    else if (225 ≤ b && b ≤ 236) || b = 238 || b = 239 then
      match rest with
      | c1 :: c2 :: r => contByte c1 && contByte c2 && validUTF8 r
      | _ => false
    else if b = 237 then
      match rest with
      | c1 :: c2 :: r => (128 ≤ c1 && c1 < 160) && contByte c2 && validUTF8 r
      | _ => false
    else if b = 240 then
      match rest with
      | c1 :: c2 :: c3 :: r => (144 ≤ c1 && c1 < 192) && contByte c2 && contByte c3 && validUTF8 r
      | _ => false
    else if 241 ≤ b && b ≤ 243 then
      match rest with
      | c1 :: c2 :: c3 :: r => contByte c1 && contByte c2 && contByte c3 && validUTF8 r
      | _ => false
    else if b = 244 then
      match rest with
      | c1 :: c2 :: c3 :: r => (128 ≤ c1 && c1 < 144) && contByte c2 && contByte c3 && validUTF8 r
      | _ => false
    else false

inductive ParseErr : Type where
  | parseError : ParseErr
deriving DecidableEq

/-- Modelled from the spec: the concrete grammar engine is an external
collaborator outside the source tree; on any byte input it produces a
best-effort tree without raising (the spec's SyntaxParser boundary), which is
what the installed tree-sitter binding does. -/
def ts_engine : List Nat → Node :=
  fun _ => Node.mk "program" Kids.nil ""

def parse (engine : List Nat → Node) (input : ParseInput) : Except ParseErr (Node × List Nat) :=
  let code := match input with
    | .str s => utf8Encode s
    | .bytes bs => bs
  .ok (engine code, code)

/- Reference predicates for the mutation-detection claims: an assignment
whose left-hand side is a member expression containing "this." anywhere
(what the source tests), and one whose left-hand side is rooted at `this`
(what the claim states). -/

def isThisDotAssign (n : Node) : Bool :=
  n.type = "assignment_expression" &&
  (match n.child_by_field_name "left" with
   | some l => l.type = "member_expression" && strContains l.text "this."
   | none => false)

def isThisRootedAssign (n : Node) : Bool :=
  n.type = "assignment_expression" &&
  (match n.child_by_field_name "left" with
   | some l => l.type = "member_expression" && strStarts l.text "this."
   | none => false)

/- Reference chunk constructors used to state what `normalize` emits: the
chunk a function or arrow record yields, and the chunk the class loop
actually builds — its scalar fields taken from the stale function-loop
record `fn`, only `metadata` from the class record. -/

def fnChunkOf (path : String) (imports : List String) (fn : FnRecord) : Chunk :=
  { imports := imports, name := fn.name, type := fn.type, language := fn.language,
    params := fn.params, code := fn.code, path := path }

def staleClassChunkOf (path : String) (imports : List String) (fn : FnRecord)
    (cls : ClassRecord) : Chunk :=
  { imports := imports, name := fn.name, type := fn.type, language := fn.language,
    params := fn.params, code := fn.code, path := path, metadata := some cls.methods }

/- Concrete syntax trees used to evaluate the extractors, written as the
external parser would deliver them (field-tagged children; every node carries
its verbatim source span). -/

def toKids : List (Option String × Node) → Kids
  | [] => .nil
  | (f, n) :: rest => .cons f n (toKids rest)

def identNode (s : String) : Node := .mk "identifier" .nil s

def propIdent (s : String) : Node := .mk "property_identifier" .nil s

/- `function foo(a) return a` -/
def fooParamsNode : Node := .mk "formal_parameters" (toKids [(none, identNode "a")]) "(a)"

def fooFnNode : Node :=
  .mk "function_declaration"
    (toKids [(some "name", identNode "foo"), (some "parameters", fooParamsNode)])
    "function foo(a) return a"

/- `class Bar` with one method `m()` whose body assigns `this.x = 1` -/
def mLeftNode : Node := .mk "member_expression" .nil "this.x"

def mAssignNode : Node :=
  .mk "assignment_expression" (toKids [(some "left", mLeftNode)]) "this.x = 1"

def mBodyNode : Node :=
  .mk "statement_block" (toKids [(none, mAssignNode)]) "this.x = 1"

def mDefNode : Node :=
  .mk "method_definition"
    (toKids [(some "name", propIdent "m"),
             (some "parameters", Node.mk "formal_parameters" Kids.nil "()"),
             (some "body", mBodyNode)])
    "m() this.x = 1"

def barBodyNode : Node := .mk "class_body" (toKids [(none, mDefNode)]) "m() this.x = 1"

def barClsNode : Node :=
  .mk "class_declaration"
    (toKids [(some "name", identNode "Bar"), (some "body", barBodyNode)])
    "class Bar m() this.x = 1"

def c1Root : Node :=
  .mk "program" (toKids [(none, fooFnNode), (none, barClsNode)])
    "function foo(a) return a class Bar m() this.x = 1"

def fooRecord : FnRecord :=
  { type := "function", name := "foo", language := "javascript", imports := [],
    params := ["a"], code := "foo" }

def mMethodRecord : MethodRecord :=
  { name := "m", params := [], calls := ∅, mutatesState := true,
    mutations := (["this.x"] : List String).toFinset, code := "m() this.x = 1" }

def barClassRecord : ClassRecord :=
  { type := "class", name := "Bar", file_path := "file path", language := "javascript",
    imports := [], constructorInfo := "constructor", methods := [mMethodRecord],
    code := "class Bar m() this.x = 1" }

/- A method body invoking `b()` and then `a()`. -/
def callBNode : Node :=
  .mk "call_expression" (toKids [(some "function", identNode "b")]) "b()"

def callANode : Node :=
  .mk "call_expression" (toKids [(some "function", identNode "a")]) "a()"

def c2Member : Node :=
  .mk "method_definition"
    (toKids [(some "name", propIdent "m"),
             (some "body", Node.mk "statement_block" (toKids [(none, callBNode), (none, callANode)]) "b() a()")])
    "m() b() a()"

/- A function declaration whose `name` field is missing, followed by a
well-formed one. -/
def namelessFnNode : Node :=
  .mk "function_declaration"
    (toKids [(some "parameters", Node.mk "formal_parameters" (toKids [(none, identNode "x")]) "(x)")])
    "function (x) return x"

def goodFnNode : Node :=
  .mk "function_declaration" (toKids [(some "name", identNode "g")]) "function g() return 1"

def c3Root : Node :=
  .mk "program" (toKids [(none, namelessFnNode), (none, goodFnNode)])
    "function (x) return x function g() return 1"

/- An arrow-function initializer bound by a declarator with no `name` field,
and a lone nameless function declaration. -/
def arrowFnNode : Node :=
  .mk "arrow_function"
    (toKids [(some "parameters", Node.mk "formal_parameters" (toKids [(none, identNode "x")]) "(x)")])
    "(x) => x + 1"

def c4Decl : Node :=
  .mk "variable_declarator" (toKids [(some "value", arrowFnNode)]) "= (x) => x + 1"

def c4Root : Node := .mk "program" (toKids [(none, c4Decl)]) "= (x) => x + 1"

def c4FnRoot : Node := .mk "program" (toKids [(none, namelessFnNode)]) "function (x) return x"

/- `const bar = (x) => x + 1` next to `function foo(a) return a`. -/
def barDeclNode : Node :=
  .mk "variable_declarator"
    (toKids [(some "name", identNode "bar"), (some "value", arrowFnNode)])
    "bar = (x) => x + 1"

def c5Root : Node :=
  .mk "program" (toKids [(none, fooFnNode), (none, barDeclNode)])
    "function foo(a) return a const bar = (x) => x + 1"

def barArrowRecord : FnRecord :=
  { type := "arrow_function", name := "bar", language := "javascript", imports := [],
    params := ["x"], code := "bar" }

/- A method assigning through `notthis.x`, a member expression that contains
the substring "this." without being rooted at `this`. -/
def c6Left : Node := .mk "member_expression" .nil "notthis.x"

def c6Assign : Node :=
  .mk "assignment_expression" (toKids [(some "left", c6Left)]) "notthis.x = 1"

def c6Member : Node :=
  .mk "method_definition"
    (toKids [(some "name", propIdent "m"),
             (some "body", Node.mk "statement_block" (toKids [(none, c6Assign)]) "notthis.x = 1")])
    "m() notthis.x = 1"

def c6Cls : Node :=
  .mk "class_declaration"
    (toKids [(some "name", identNode "Acc"),
             (some "body", Node.mk "class_body" (toKids [(none, c6Member)]) "m() notthis.x = 1")])
    "class Acc m() notthis.x = 1"

def c6Record : MethodRecord :=
  { name := "m", params := [], calls := ∅, mutatesState := true,
    mutations := (["notthis.x"] : List String).toFinset, code := "m() notthis.x = 1" }

def c7Root : Node := .mk "program" (toKids [(none, fooFnNode)]) "function foo(a) return a"

/- Two import statements with the same operand, then a function. -/
def importExpressNode : Node :=
  .mk "import_statement"
    (toKids [(none, Node.mk "string" Kids.nil "\x22express\x22")])
    "import \x22express\x22"

def c9Root : Node :=
  .mk "program" (toKids [(none, importExpressNode), (none, importExpressNode), (none, fooFnNode)])
    "import \x22express\x22 import \x22express\x22 function foo(a) return a"

def c9FooChunk : Chunk :=
  { imports := ["express", "express"], name := "foo", type := "function",
    language := "javascript", params := ["a"], code := "foo", path := "p" }

def c10Root : Node :=
  .mk "program" (toKids [(none, barClsNode)]) "class Bar m() this.x = 1"


/- Helper lemmas: the shared walk combinators restated over the pre-order
flattening of the tree. -/

mutual

theorem collectN_eq_preorder {α : Type} (h : Node → List α) (n : Node) :
    collectN h n = (preorderN n).flatMap h := by
  cases n with
  | mk t k s =>
    simp [collectN, preorderN, List.flatMap_cons, collectK_eq_preorder h k]

theorem collectK_eq_preorder {α : Type} (h : Node → List α) (k : Kids) :
    collectK h k = (preorderK k).flatMap h := by
  cases k with
  | nil => simp [collectK, preorderK]
  | cons f n rest =>
    simp [collectK, preorderK, List.flatMap_append,
      collectN_eq_preorder h n, collectK_eq_preorder h rest]

end

mutual

theorem anyNodeN_eq_preorder (p : Node → Bool) (n : Node) :
    anyNodeN p n = (preorderN n).any p := by
  cases n with
  | mk t k s => simp [anyNodeN, preorderN, anyNodeK_eq_preorder p k]

theorem anyNodeK_eq_preorder (p : Node → Bool) (k : Kids) :
    anyNodeK p k = (preorderK k).any p := by
  cases k with
  | nil => simp [anyNodeK, preorderK]
  | cons f n rest =>
    simp [anyNodeK, preorderK, anyNodeN_eq_preorder p n, anyNodeK_eq_preorder p rest]

end

/- `exAppend` composition of fallible walks. -/

theorem exMapM_append {α β : Type} (f : α → Except PyErr β) (l1 l2 : List α) :
    exMapM f (l1 ++ l2) = exAppend (exMapM f l1) (exMapM f l2) := by
  induction l1 with
  | nil =>
    simp only [List.nil_append, exMapM, exAppend]
    cases exMapM f l2 <;> rfl
  | cons x xs ih =>
    have ih2 : exMapM f (List.append xs l2) = exAppend (exMapM f xs) (exMapM f l2) := ih
    simp only [List.cons_append, exMapM]
    rw [ih2]
    cases f x <;> cases exMapM f xs <;> cases exMapM f l2 <;> simp [exAppend]

mutual

theorem collectEN_eq_preorder {α : Type} (h : Node → Except PyErr (List α)) (n : Node) :
    collectEN h n = Except.map List.flatten (exMapM h (preorderN n)) := by
  cases n with
  | mk t k s =>
    simp only [collectEN, preorderN, exMapM, collectEK_eq_preorder h k]
    cases h (Node.mk t k s) <;> cases exMapM h (preorderK k) <;>
      simp [Except.map, exAppend]

theorem collectEK_eq_preorder {α : Type} (h : Node → Except PyErr (List α)) (k : Kids) :
    collectEK h k = Except.map List.flatten (exMapM h (preorderK k)) := by
  cases k with
  | nil => simp [collectEK, preorderK, exMapM, Except.map]
  | cons f n rest =>
    simp only [collectEK, preorderK, exMapM_append,
      collectEN_eq_preorder h n, collectEK_eq_preorder h rest]
    cases exMapM h (preorderN n) <;> cases exMapM h (preorderK rest) <;>
      simp [Except.map, exAppend]

end


theorem exMapM_mem {α β : Type} (f : α → Except PyErr β) :
    ∀ (l : List α) (l2 : List β), exMapM f l = .ok l2 → ∀ b ∈ l2, ∃ a ∈ l, f a = .ok b := by
  intro l
  induction l with
  | nil =>
    intro l2 h b hb
    simp only [exMapM, Except.ok.injEq] at h
    subst h
    simp at hb
  | cons x xs ih =>
    intro l2 h b hb
    simp only [exMapM] at h
    cases hx : f x with
    | error e => rw [hx] at h; simp at h
    | ok y =>
      rw [hx] at h
      cases hxs : exMapM f xs with
      | error e => rw [hxs] at h; simp at h
      | ok ys =>
        rw [hxs] at h
        simp only [Except.ok.injEq] at h
        subst h
        cases List.mem_cons.mp hb with
        | inl hby =>
          subst hby
          exact ⟨x, List.mem_cons_self x xs, hx⟩
        | inr hbys =>
          obtain ⟨a, ha, hfa⟩ := ih ys hxs b hbys
          exact ⟨a, List.mem_cons_of_mem x ha, hfa⟩

theorem flatMap_eq_filter_flatMap {α : Type} (p : Node → Bool) (g h : Node → List α)
    (hOff : ∀ n, p n = false → h n = [])
    (hOn : ∀ n, p n = true → h n = g n) :
    ∀ l : List Node, l.flatMap h = (l.filter p).flatMap g := by
  intro l
  induction l with
  | nil => rfl
  | cons x xs ih =>
    cases hx : p x with
    | false => simp [List.filter_cons, hx, hOff x hx, ih]
    | true => simp [List.filter_cons, hx, hOn x hx, ih]

theorem exMapM_flatten_eq_filter {α : Type} (p : Node → Bool)
    (g h : Node → Except PyErr (List α))
    (hOff : ∀ n, p n = false → h n = .ok [])
    (hOn : ∀ n, p n = true → h n = g n) :
    ∀ l : List Node,
      Except.map List.flatten (exMapM h l) =
        Except.map List.flatten (exMapM g (l.filter p)) := by
  intro l
  induction l with
  | nil => rfl
  | cons x xs ih =>
    cases hx : p x with
    | false =>
      have hfil : List.filter p (x :: xs) = List.filter p xs := by
        simp [List.filter_cons, hx]
      rw [hfil]
      simp only [exMapM, hOff x hx]
      cases hxs : exMapM h xs with
      | error e => rw [hxs] at ih; simpa using ih
      | ok ys => rw [hxs] at ih; simpa using ih
    | true =>
      have hfil : List.filter p (x :: xs) = x :: List.filter p xs := by
        simp [List.filter_cons, hx]
      rw [hfil]
      simp only [exMapM, hOn x hx]
      cases hgx : g x with
      | error e => simp [Except.map]
      | ok y =>
        cases hxs : exMapM h xs with
        | error e =>
          rw [hxs] at ih
          cases hgs : exMapM g (List.filter p xs) with
          | error e2 =>
            rw [hgs] at ih
            simp only [Except.map] at ih ⊢
            exact ih
          | ok zs =>
            rw [hgs] at ih
            simp [Except.map] at ih
        | ok ys =>
          rw [hxs] at ih
          cases hgs : exMapM g (List.filter p xs) with
          | error e2 =>
            rw [hgs] at ih
            simp [Except.map] at ih
          | ok zs =>
            rw [hgs] at ih
            simp only [Except.map, Except.ok.injEq] at ih ⊢
            simp [ih]

theorem analyze_ok_parts {root : Node} {pj : AnalysisResult} (h : analyze root = .ok pj) :
    pj.imports = extract_imports root ∧ extract_functions root = .ok pj.functions ∧
    pj.arrow_functions = extract_arrow_functions root ∧
    extract_classes root = .ok pj.classes ∧ pj.exports = extract_exports root := by
  unfold analyze at h
  cases hf : extract_functions root with
  | error e => rw [hf] at h; simp at h
  | ok fns =>
    rw [hf] at h
    cases hc : extract_classes root with
    | error e => rw [hc] at h; simp at h
    | ok cls =>
      rw [hc] at h
      simp only [Except.ok.injEq] at h
      subst h
      exact ⟨rfl, rfl, rfl, rfl, rfl⟩

theorem normalize_ok_shape {path : String} {root : Node} {chunks : List Chunk}
    (h : JSChunkAdaptor.normalize path root = .ok chunks) :
    ∃ pj, analyze root = .ok pj ∧
      ((pj.classes = [] ∧
          chunks = pj.functions.map (fnChunkOf path pj.imports) ++
                   pj.arrow_functions.map (fnChunkOf path pj.imports)) ∨
       (∃ fnLast, pj.functions.getLast? = some fnLast ∧
          chunks = pj.functions.map (fnChunkOf path pj.imports) ++
                   pj.arrow_functions.map (fnChunkOf path pj.imports) ++
                   pj.classes.map (staleClassChunkOf path pj.imports fnLast))) := by
  cases ha : analyze root with
  | error e =>
    simp only [JSChunkAdaptor.normalize, ha] at h
    exact Except.noConfusion h
  | ok pj =>
    simp only [JSChunkAdaptor.normalize, ha] at h
    refine ⟨pj, rfl, ?_⟩
    cases hcls : pj.classes with
    | nil =>
      rw [hcls] at h
      simp only [Except.ok.injEq] at h
      left
      refine ⟨rfl, ?_⟩
      rw [← h]
      rfl
    | cons c cs =>
      rw [hcls] at h
      cases hl : pj.functions.getLast? with
      | none =>
        rw [hl] at h
        exact Except.noConfusion h
      | some fnLast =>
        rw [hl] at h
        simp only [Except.ok.injEq] at h
        right
        refine ⟨fnLast, rfl, ?_⟩
        rw [← h]
        rfl


theorem mutHere_eq_nil_iff (n : Node) : mutHere n = [] ↔ isThisDotAssign n = false := by
  unfold mutHere isThisDotAssign
  by_cases hty : n.type = "assignment_expression"
  · rw [if_pos hty, decide_eq_true hty, Bool.true_and]
    cases n.child_by_field_name "left" with
    | none => simp
    | some l =>
      by_cases hmem : (l.type = "member_expression" && strContains l.text "this.") = true
      · simp [hmem]
      · simp only [Bool.not_eq_true] at hmem
        simp [hmem]
  · rw [if_neg hty, decide_eq_false hty, Bool.false_and]
    simp

theorem mutSeq_eq_nil_iff (n : Node) :
    mutSeq n = [] ↔ anyNodeN isThisDotAssign n = false := by
  rw [mutSeq, collectN_eq_preorder, anyNodeN_eq_preorder,
    List.flatMap_eq_nil_iff, List.any_eq_false]
  constructor
  · intro h x hx
    rw [Bool.not_eq_true]
    exact (mutHere_eq_nil_iff x).mp (h x hx)
  · intro h x hx
    refine (mutHere_eq_nil_iff x).mpr ?_
    rw [← Bool.not_eq_true]
    exact h x hx

theorem mutates_state_empty_iff (n : Node) :
    mutates_state n = ∅ ↔ anyNodeN isThisDotAssign n = false := by
  rw [mutates_state, List.toFinset_eq_empty_iff, mutSeq_eq_nil_iff]


/-- C1: normalization does not build the class chunk from the class record.
On a file containing `function foo(a)` followed by `class Bar` with method
`m`, the extracted class record is named "Bar", but the chunk the adaptor
emits for it carries the stale function-loop record's name "foo", kind
"function" and code "foo"; only the method metadata comes from the class
record. -/
theorem c1_class_chunk_uses_stale_function_fields :
    extract_classes c1Root = .ok [barClassRecord] ∧
    barClassRecord.name = "Bar" ∧
    JSChunkAdaptor.normalize "p" c1Root =
      .ok [fnChunkOf "p" [] fooRecord, staleClassChunkOf "p" [] fooRecord barClassRecord] ∧
    (staleClassChunkOf "p" [] fooRecord barClassRecord).name = "foo" ∧
    (staleClassChunkOf "p" [] fooRecord barClassRecord).type = "function" ∧
    (staleClassChunkOf "p" [] fooRecord barClassRecord).code = "foo" ∧
    (staleClassChunkOf "p" [] fooRecord barClassRecord).metadata = some barClassRecord.methods := by
  exact ⟨by decide, rfl, by decide, rfl, rfl, rfl, rfl⟩

/-- C2: on a method body invoking `b()` and then `a()`, the walk feeds the
callee texts into a hash set in first-occurrence order ["b", "a"], but the
set the code returns is equally the deduplicated enumeration ["a", "b"]: the
returned collection preserves distinctness yet does not determine
first-occurrence iteration order. -/
theorem c2_calls_set_forgets_first_occurrence_order :
    callSeq c2Member = ["b", "a"] ∧
    extract_calls c2Member = (["b", "a"] : List String).toFinset ∧
    extract_calls c2Member = (["a", "b"] : List String).toFinset ∧
    (["a", "b"] : List String).Nodup ∧
    (["a", "b"] : List String) ≠ ["b", "a"] := by
  exact ⟨rfl, by decide, by decide, by decide, by decide⟩

/-- C3: a file whose first unit is a function declaration with a missing
name field makes the whole extraction raise: the well-formed second unit `g`
is never extracted, nothing is recorded per unit (the code defines no
ExtractionError), and `analyze` propagates the exception. -/
theorem c3_malformed_unit_aborts_extraction :
    extract_functions c3Root = .error .attributeError ∧
    analyze c3Root = .error .attributeError :=
  ⟨rfl, rfl⟩

/-- C4: units lacking a resolvable name are not emitted as "anonymous"
chunks: a declarator binding an arrow function but carrying no name field is
silently skipped (no record and no chunk at all), and a nameless function
declaration raises instead of yielding an "anonymous" record. -/
theorem c4_anonymous_units_not_emitted :
    extract_arrow_functions c4Root = [] ∧
    JSChunkAdaptor.normalize "p" c4Root = .ok [] ∧
    extract_functions c4FnRoot = .error .attributeError :=
  ⟨rfl, rfl, rfl⟩

/-- C5: the `code` field of function and arrow records is the text of the
name node, not the verbatim text of the whole declaration. -/
theorem c5_code_field_is_name_fragment :
    extract_functions c5Root = .ok [fooRecord] ∧
    fooRecord.code = "foo" ∧
    fooFnNode.text = "function foo(a) return a" ∧
    fooRecord.code ≠ fooFnNode.text ∧
    extract_arrow_functions c5Root = [barArrowRecord] ∧
    barArrowRecord.code = "bar" ∧
    barDeclNode.text = "bar = (x) => x + 1" ∧
    barArrowRecord.code ≠ barDeclNode.text := by
  exact ⟨rfl, rfl, rfl, by decide, rfl, rfl, rfl, by decide⟩

/-- C6 as stated is false: the method `m() notthis.x = 1` contains no
assignment whose left-hand side is rooted at `this`, yet its record has
`mutatesState = true`, because the source only tests substring containment
of "this." in the left-hand side's text. -/
theorem c6_substring_counterexample :
    extract_methods c6Cls = .ok [c6Record] ∧
    c6Record.mutatesState = true ∧
    anyNodeN isThisRootedAssign c6Member = false ∧
    c6Record.mutations = (["notthis.x"] : List String).toFinset := by
  exact ⟨by decide, rfl, by decide, rfl⟩

/-- C6 amended: a method record has `mutatesState = true` exactly when the
member's subtree contains an assignment whose left-hand side is a member
expression whose text contains the substring "this." (not necessarily rooted
at `this`); `mutations` is the set of those left-hand-side texts, and
`mutatesState` is true exactly when that set is non-empty. -/
theorem c6_amended_mutation_detection :
    (∀ n : Node, mutates_state n = ∅ ↔ anyNodeN isThisDotAssign n = false) ∧
    (∀ (cls : Node) (recs : List MethodRecord), extract_methods cls = .ok recs →
      ∀ r ∈ recs, ∃ mem ∈ methodMembers cls,
        r.mutations = mutates_state mem ∧
        (r.mutatesState = true ↔ mutates_state mem ≠ ∅) ∧
        (r.mutatesState = true ↔ anyNodeN isThisDotAssign mem = true)) := by
  constructor
  · exact mutates_state_empty_iff
  · intro cls recs h r hr
    obtain ⟨mem, hmem, hrec⟩ := exMapM_mem methodRecord (methodMembers cls) recs h r hr
    refine ⟨mem, hmem, ?_⟩
    unfold methodRecord at hrec
    cases hname : mem.child_by_field_name "name" with
    | none => rw [hname] at hrec; exact Except.noConfusion hrec
    | some nm =>
      rw [hname] at hrec
      simp only [Except.ok.injEq] at hrec
      subst hrec
      refine ⟨rfl, ?_, ?_⟩
      · simp only [Bool.not_eq_true', Bool.not_not]
        rw [ne_eq, mutates_state, List.toFinset_eq_empty_iff]
        rw [← List.isEmpty_iff]
        simp [Bool.not_eq_true']
      · simp only [Bool.not_eq_true', Bool.not_not]
        rw [← Bool.not_eq_false (anyNodeN isThisDotAssign mem), ← mutSeq_eq_nil_iff]
        rw [← List.isEmpty_iff]
        simp [Bool.not_eq_true']


/-- C6 amended, instantiated: applying the amended theorem to the concrete
class `Acc` discharges its hypotheses. -/
theorem c6_amended_mutation_detection_witness :
    ∃ mem ∈ methodMembers c6Cls,
      c6Record.mutations = mutates_state mem ∧
      (c6Record.mutatesState = true ↔ mutates_state mem ≠ ∅) ∧
      (c6Record.mutatesState = true ↔ anyNodeN isThisDotAssign mem = true) :=
  c6_amended_mutation_detection.2 c6Cls [c6Record] (by decide) c6Record (by decide)

/-- C7: the module-level pipeline is a pure function of the file's content
with no store parameter: on a file with one function it emits that chunk's
embedding text, and a re-run on the identical content emits the identical
non-empty output again — no chunk is ever skipped because no chunk id is
ever computed or looked up. -/
theorem c7_pipeline_reprocesses_everything :
    module_pipeline c7Root = .ok ["foo foo "] ∧
    (["foo foo "] : List String) ≠ [] ∧
    [module_pipeline c7Root, module_pipeline c7Root] =
      [.ok ["foo foo "], .ok ["foo foo "]] := by
  exact ⟨rfl, by decide, rfl⟩

/-- C8 as stated is false: the byte string [255] is not valid UTF-8, yet
`parse` does not fail with a ParseError — it hands the bytes to the external
engine unchanged and returns the engine's best-effort tree. -/
theorem c8_invalid_utf8_counterexample :
    validUTF8 [255] = false ∧
    parse ts_engine (.bytes [255]) = .ok (ts_engine [255], [255]) :=
  ⟨by decide, rfl⟩

/-- C8 amended: `parse` performs no UTF-8 validation and never returns a
ParseError: for any engine, a byte input that is not valid UTF-8 is still
parsed to a tree, and every input whatsoever yields a tree (string input is
first encoded to UTF-8 bytes). -/
theorem c8_amended_parse_never_fails :
    (∀ (engine : List Nat → Node) (bs : List Nat), validUTF8 bs = false →
      parse engine (.bytes bs) = .ok (engine bs, bs)) ∧
    (∀ (engine : List Nat → Node) (input : ParseInput),
      (parse engine input).isOk = true) := by
  constructor
  · intro engine bs _
    rfl
  · intro engine input
    cases input <;> rfl

/-- C8 amended, instantiated at the invalid byte string [254]. -/
theorem c8_amended_parse_never_fails_witness :
    parse ts_engine (.bytes [254]) = .ok (ts_engine [254], [254]) :=
  c8_amended_parse_never_fails.1 ts_engine [254] (by decide)

/-- C9: the import list is the source-ordered, occurrence-preserving
sequence of string operands of the file's import statements (stated via the
pre-order flattening of the tree), and normalization attaches this single
file-level list unchanged as the `imports` field of every chunk it emits. -/
theorem c9_imports_source_order_and_denormalized :
    (∀ root : Node, extract_imports root =
        ((preorderN root).filter (fun n => n.type = "import_statement")).flatMap
          importOperands) ∧
    (∀ (path : String) (root : Node) (chunks : List Chunk),
        JSChunkAdaptor.normalize path root = .ok chunks →
        ∀ c ∈ chunks, c.imports = extract_imports root) := by
  constructor
  · intro root
    rw [extract_imports, collectN_eq_preorder]
    refine flatMap_eq_filter_flatMap _ importOperands importHere ?_ ?_ (preorderN root)
    · intro n hn
      unfold importHere
      rw [if_neg]
      simpa using hn
    · intro n hn
      unfold importHere
      rw [if_pos]
      simpa using hn
  · intro path root chunks h c hc
    obtain ⟨pj, ha, hshape⟩ := normalize_ok_shape h
    have himp : pj.imports = extract_imports root := (analyze_ok_parts ha).1
    rcases hshape with ⟨_, hch⟩ | ⟨fnLast, _, hch⟩
    · subst hch
      rcases List.mem_append.mp hc with hm | hm <;>
      · obtain ⟨x, _, rfl⟩ := List.mem_map.mp hm
        simpa [fnChunkOf] using himp
    · subst hch
      rcases List.mem_append.mp hc with hm | hm
      · rcases List.mem_append.mp hm with hm2 | hm2 <;>
        · obtain ⟨x, _, rfl⟩ := List.mem_map.mp hm2
          simpa [fnChunkOf] using himp
      · obtain ⟨x, _, rfl⟩ := List.mem_map.mp hm
        simpa [staleClassChunkOf] using himp

/-- C9, instantiated: the chunk normalized from a file with two identical
imported operands carries the file-level occurrence-preserving list. -/
theorem c9_imports_witness :
    c9FooChunk.imports = extract_imports c9Root :=
  c9_imports_source_order_and_denormalized.2 "p" c9Root [c9FooChunk]
    (by decide) c9FooChunk (by decide)


/-- C10 as stated is false: on a file containing a class but no function,
`normalize` does not return any grouped chunk list — the stale function-loop
variable is unbound and the adaptor raises NameError. -/
theorem c10_class_without_function_counterexample :
    JSChunkAdaptor.normalize "p" c10Root = .error .nameError ∧
    extract_classes c10Root = .ok [barClassRecord] :=
  ⟨rfl, by decide⟩

/-- C10 amended: when extraction yields at least one function record (or no
class records), `normalize` returns the chunks grouped in a fixed order —
the function-unit chunks, then the arrow-unit chunks, then one chunk per
class unit — where each extraction list enumerates its units by pre-order
tree position; the class-group chunks carry the last function record's
name/kind/params/code with the class's methods as metadata, and a file with
a class but no function record makes `normalize` raise NameError instead of
returning. -/
theorem c10_amended_grouped_output :
    ∀ (path : String) (root : Node) (pj : AnalysisResult), analyze root = .ok pj →
      (pj.classes = [] →
        JSChunkAdaptor.normalize path root =
          .ok (pj.functions.map (fnChunkOf path pj.imports) ++
               pj.arrow_functions.map (fnChunkOf path pj.imports))) ∧
      (∀ fnLast, pj.functions.getLast? = some fnLast →
        JSChunkAdaptor.normalize path root =
          .ok (pj.functions.map (fnChunkOf path pj.imports) ++
               pj.arrow_functions.map (fnChunkOf path pj.imports) ++
               pj.classes.map (staleClassChunkOf path pj.imports fnLast))) ∧
      (pj.functions = [] → pj.classes ≠ [] →
        JSChunkAdaptor.normalize path root = .error .nameError) ∧
      Except.map List.flatten
          (exMapM (fnHere pj.imports)
            ((preorderN root).filter (fun n => n.type = "function_declaration"))) =
        .ok pj.functions ∧
      pj.arrow_functions =
        ((preorderN root).filter (fun n => n.type = "variable_declarator")).flatMap
          (arrowHere pj.imports) ∧
      Except.map List.flatten
          (exMapM (classHere pj.imports)
            ((preorderN root).filter (fun n => n.type = "class_declaration"))) =
        .ok pj.classes := by
  intro path root pj ha
  obtain ⟨himp, hfn, harrow, hcls, -⟩ := analyze_ok_parts ha
  refine ⟨?_, ?_, ?_, ?_, ?_, ?_⟩
  · intro hc
    simp only [JSChunkAdaptor.normalize, ha]
    rw [hc]
    rfl
  · intro fnLast hLast
    simp only [JSChunkAdaptor.normalize, ha]
    cases hc : pj.classes with
    | nil =>
      simp only [List.map_nil, List.append_nil]
      rfl
    | cons c cs =>
      rw [hLast]
      rfl
  · intro hfnNil hclsNe
    simp only [JSChunkAdaptor.normalize, ha]
    cases hc : pj.classes with
    | nil => exact absurd hc hclsNe
    | cons c cs =>
      rw [hfnNil]
      rfl
  · rw [← hfn, extract_functions, ← himp, collectEN_eq_preorder]
    refine (exMapM_flatten_eq_filter _ (fnHere pj.imports) (fnHere pj.imports) ?_
      (fun n _ => rfl) (preorderN root)).symm
    intro n hn
    unfold fnHere
    rw [if_neg (of_decide_eq_false hn)]
  · rw [harrow, extract_arrow_functions, ← himp, collectN_eq_preorder]
    refine flatMap_eq_filter_flatMap _ (arrowHere pj.imports) (arrowHere pj.imports) ?_
      (fun n _ => rfl) (preorderN root)
    intro n hn
    unfold arrowHere
    rw [if_neg (of_decide_eq_false hn)]
  · rw [← hcls, extract_classes, ← himp, collectEN_eq_preorder]
    refine (exMapM_flatten_eq_filter _ (classHere pj.imports) (classHere pj.imports) ?_
      (fun n _ => rfl) (preorderN root)).symm
    intro n hn
    unfold classHere
    rw [if_neg (of_decide_eq_false hn)]

/-- C10 amended, instantiated on a file with one function and one class. -/
theorem c10_amended_grouped_output_witness :
    JSChunkAdaptor.normalize "p" c1Root =
      .ok ([fooRecord].map (fnChunkOf "p" []) ++ ([] : List FnRecord).map (fnChunkOf "p" []) ++
           [barClassRecord].map (staleClassChunkOf "p" [] fooRecord)) :=
  (c10_amended_grouped_output "p" c1Root
      ⟨[], [fooRecord], [], [barClassRecord], []⟩ (by decide)).2.1 fooRecord (by decide)
